import Mathlib

/-!
Verification of the "AreTheyIn" board-normalization pipeline (src/server.js,
the most defensive variant, which the spec designates as the baseline).

The JavaScript source is shallowly embedded: strings are Lean `String`s
manipulated through their `List Char` code points, JavaScript `null`/absent
values are `Option`, and the two host-dependent effects (the `new Date(text)`
calendar parse and the wall clock) are passed in as explicit parameters
(`dateParse : String → Option (String × Int)` giving the ISO rendering and
epoch milliseconds of a successfully parsed date, and `now : String`).
Regular-expression operations of the source are compiled by hand into
scanners over `List Char` that realize the leftmost-match, greedy,
non-overlapping semantics of the JavaScript regexps involved.
`String.prototype.localeCompare` is modelled as code-point lexicographic
order, and the JavaScript object used for deduplication is modelled with
string-key insertion-order semantics (the row ids are GUID strings, not
integer-like keys).
-/

namespace ATI

/-- JavaScript whitespace class membership for the characters that can occur
here (the regex class backslash-s): space, tab, newline, carriage return,
vertical tab, form feed, and the non-breaking space. -/
def isWsC (c : Char) : Bool :=
  c = ' ' || c = '\t' || c = '\n' || c = '\r' || c = '\x0b' || c = '\x0c' || c = '\u00A0'

/-- ASCII lowercasing of one character, as `toLowerCase` acts on ASCII. -/
def lowerC (c : Char) : Char :=
  if 'A' ≤ c ∧ c ≤ 'Z' then Char.ofNat (c.toNat + 32) else c

/-- ASCII uppercasing of one character, as `toUpperCase` acts on ASCII. -/
def upperC (c : Char) : Char :=
  if 'a' ≤ c ∧ c ≤ 'z' then Char.ofNat (c.toNat - 32) else c

/-- Lowercase a whole string (ASCII). -/
def lowerS (s : String) : String := String.mk (s.data.map lowerC)

/-- Substring test: does `needle` occur contiguously inside `hay`?
Models `/needle/.test(hay)` for a literal needle. -/
def containsSub (needle : List Char) : List Char → Bool
  | [] => needle.isEmpty
  | c :: rest => List.isPrefixOf needle (c :: rest) || containsSub needle rest

/-- JS word-character class (backslash-w): ASCII letters, digits, underscore. -/
def isWordChar (c : Char) : Bool := c.isAlphanum || c = '_'

/-- First pass of `decode`: `.replace(/\u00A0|&nbsp;/g, " ")` — every
non-breaking-space character and every literal `&nbsp;` entity becomes one
plain space (left-to-right, non-overlapping; replacements are not rescanned). -/
def replNbsp : List Char → List Char
  | [] => []
  | '\u00A0' :: rest => ' ' :: replNbsp rest
  | '&' :: 'n' :: 'b' :: 's' :: 'p' :: ';' :: rest => ' ' :: replNbsp rest
  | c :: rest => c :: replNbsp rest

/-- Pass for `.replace(/&amp;/g, "&")`. -/
def replAmp : List Char → List Char
  | [] => []
  | '&' :: 'a' :: 'm' :: 'p' :: ';' :: rest => '&' :: replAmp rest
  | c :: rest => c :: replAmp rest

/-- Pass for `.replace(/&lt;/g, "<")`. -/
def replLt : List Char → List Char
  | [] => []
  | '&' :: 'l' :: 't' :: ';' :: rest => '<' :: replLt rest
  | c :: rest => c :: replLt rest

/-- Pass for `.replace(/&gt;/g, ">")`. -/
def replGt : List Char → List Char
  | [] => []
  | '&' :: 'g' :: 't' :: ';' :: rest => '>' :: replGt rest
  | c :: rest => c :: replGt rest

/-- Pass for `.replace(/[ \t]+/g, " ")` — collapse runs of spaces and tabs to a single
space. The Boolean argument records whether we are inside such a run. -/
def collapseAux (inRun : Bool) : List Char → List Char
  | [] => []
  | c :: rest =>
    if c = ' ' ∨ c = '\t' then
      if inRun then collapseAux true rest else ' ' :: collapseAux true rest
    else c :: collapseAux false rest

def collapseHWs (l : List Char) : List Char := collapseAux false l

/-- Index of the last newline in a list, when there is one. -/
def lastNlIdx (r : List Char) : Option Nat :=
  (r.reverse.findIdx? (fun c => c = '\n')).map (fun i => r.length - 1 - i)

/-- Effect of one global pass of `/\s+\n/g → "\n"` on a single maximal
whitespace run: the greedy match consumes up to the last newline of the run
(provided that newline is preceded by at least one whitespace character),
leaving a single newline plus the newline-free tail of the run. -/
def step6Run (r : List Char) : List Char :=
  match lastNlIdx r with
  | some k => if 1 ≤ k then '\n' :: r.drop (k + 1) else r
  | none => r

/-- Effect of one global pass of `/\n\s+/g → "\n"` on a single maximal
whitespace run: everything after the first newline of the run is consumed
by the greedy match (when anything follows it inside the run). -/
def step7Run (r : List Char) : List Char :=
  match r.findIdx? (fun c => c = '\n') with
  | some j => if j + 1 < r.length then r.take (j + 1) else r
  | none => r

/-- Scanner applying a per-maximal-whitespace-run rewrite `f`; `pending`
holds the whitespace run currently being collected. Matches of the two
whitespace regexes above never span a non-whitespace character, so acting
run by run is exactly the global-replace semantics. -/
def runsAux (f : List Char → List Char) (pending : List Char) : List Char → List Char
  | [] => f pending
  | c :: rest =>
    if isWsC c then runsAux f (pending ++ [c]) rest
    else f pending ++ (c :: runsAux f [] rest)

/-- Pass for `.replace(/\s+\n/g, "\n")`. -/
def replWsNl (l : List Char) : List Char := runsAux step6Run [] l

/-- Pass for `.replace(/\n\s+/g, "\n")`. -/
def replNlWs (l : List Char) : List Char := runsAux step7Run [] l

/-- Model of `.trim()` — remove leading and trailing whitespace. -/
def trimWs (l : List Char) : List Char :=
  ((l.dropWhile isWsC).reverse.dropWhile isWsC).reverse

def trimS (s : String) : String := String.mk (trimWs s.data)

/-- The Cell Decoder `decode` of src/server.js: entity and non-breaking-space
replacement, horizontal-whitespace collapsing, newline-adjacent whitespace
normalization, and trimming, in the source's order. -/
def decode (s : String) : String :=
  String.mk (trimWs (replNlWs (replWsNl (collapseHWs
    (replGt (replLt (replAmp (replNbsp s.data))))))))

/-- The closed status set of the board. `normalizeStatus` below returns only
these four values, matching the string literals "In", "Out", "Unavailable",
"Unknown" of the source. -/
inductive Status where
  | In
  | Out
  | Unavailable
  | Unknown
deriving DecidableEq, Repr

/-- Embedding of `normalizeStatus` of src/server.js: dual-signal classification from the
lowercased row class attribute and the lowercased status cell text, testing
one status at a time, class-substring or exact cell text per branch. -/
def normalizeStatus (trClass cellText : String) : Status :=
  let c := lowerS trClass
  let t := lowerS cellText
  if containsSub ("initem".data) c.data = true ∨ t = "in" then Status.In
  else if containsSub ("outitem".data) c.data = true ∨ t = "out" then Status.Out
  else if containsSub ("unavailable".data) c.data = true ∨ t = "unavailable" then
    Status.Unavailable
  else Status.Unknown

/-- Result shape of `splitNameAndTitle`. -/
structure NameTitle where
  name : Option String
  title : Option String
deriving DecidableEq, Repr

/-- JavaScript falsy-to-null coercion on strings: `s || null`. -/
def optOfStr (s : String) : Option String := if s = "" then none else some s

/-- Is this character one of the hyphen-like separators `[-–—]`? -/
def isDash (c : Char) : Bool := c = '-' || c = '–' || c = '—'

/-- Does the list start with a whitespace character? -/
def wsNext : List Char → Bool
  | r :: _ => isWsC r
  | [] => false

/-- Is the next character a non-word character or the end of the string
(a trailing word boundary after a word character)? -/
def nonWordNext : List Char → Bool
  | [] => true
  | r :: _ => !isWordChar r

/-- Model of `text.split(/\s*[-–—]\s+/)`. The scanner walks the text; a separator
match is a dash character followed by at least one whitespace character,
together with the contiguous whitespace immediately before the dash and the
maximal whitespace after it (these are exactly the leftmost non-overlapping
matches of the pattern). `cur` holds the current segment reversed; `skipping`
is true while consuming the whitespace that follows a matched dash. -/
def splitSepAux (acc : List (List Char)) (cur : List Char) (skipping : Bool) :
    List Char → List (List Char)
  | [] => acc ++ [cur.reverse]
  | c :: rest =>
    if skipping ∧ isWsC c = true then splitSepAux acc cur true rest
    else if isDash c = true ∧ wsNext rest = true then
      splitSepAux (acc ++ [(cur.dropWhile isWsC).reverse]) [] true rest
    else splitSepAux acc (c :: cur) false rest

def jsSplitSep (l : List Char) : List (List Char) := splitSepAux [] [] false l

/-- Embedding of `splitNameAndTitle` of src/server.js. -/
def splitNameAndTitle (raw : String) : NameTitle :=
  let t := decode raw
  if t = "" then ⟨none, none⟩
  else
    match jsSplitSep t.data with
    | p :: q :: rs =>
      ⟨optOfStr (String.mk (trimWs p)),
       optOfStr (String.mk (trimWs (List.intercalate (" - ".data) (q :: rs))))⟩
    | _ => ⟨some t, none⟩

/-- Result shape of `parsePhone` (the `contact` field of a record). -/
structure ContactInfo where
  raw : Option String
  digits : Option String
  e164 : Option String
  pretty : Option String
deriving DecidableEq, Repr

/-- Embedding of `parsePhone` of src/server.js: strip non-digits
(`text.replace(/\D+/g, "")`) and format by digit count. -/
def parsePhone (rawIn : String) : ContactInfo :=
  let text := decode rawIn
  if text = "" then ⟨none, none, none, none⟩
  else
    let ds := text.data.filter Char.isDigit
    if ds = [] then ⟨some text, none, none, some text⟩
    else if ds.length = 10 then
      ⟨some text, some (String.mk ds), some ("+1" ++ String.mk ds),
       some ("(" ++ String.mk (ds.take 3) ++ ") " ++ String.mk ((ds.drop 3).take 3)
         ++ "-" ++ String.mk (ds.drop 6))⟩
    else if ds.length = 7 then
      ⟨some text, some (String.mk ds), none,
       some (String.mk (ds.take 3) ++ "-" ++ String.mk (ds.drop 3))⟩
    else
      ⟨some text, some (String.mk ds),
       if 11 ≤ ds.length then some ("+" ++ String.mk ds) else none, some text⟩

/-- Result shape of `parseReturning`. -/
structure ReturningInfo where
  raw : Option String
  hhmm : Option String
  pretty : Option String
  tokens : List String
deriving DecidableEq, Repr

/-- Left-pad a character list to length `n` with `c` (`padStart`). -/
def padL (n : Nat) (c : Char) (l : List Char) : List Char :=
  List.replicate (n - l.length) c ++ l

/-- Numeric value of a digit string, as `Number(...)` of digits. -/
def digitsNat (l : List Char) : Nat :=
  l.foldl (fun a c => a * 10 + (c.toNat - 48)) 0

/-- Test `/^\d{3,4}$/.test(text)`. -/
def pure34 (s : String) : Bool :=
  (s.data.length = 3 || s.data.length = 4) && s.data.all Char.isDigit

/-- Attempt `(AM|PM)\b` (case-insensitive) at the head of the list,
returning the two matched characters. -/
def matchAmPmBd (cs : List Char) : Option (List Char) :=
  match cs with
  | a :: m :: rest =>
    if (a = 'A' ∨ a = 'a' ∨ a = 'P' ∨ a = 'p') ∧ (m = 'M' ∨ m = 'm')
        ∧ nonWordNext rest = true then
      some [a, m]
    else none
  | _ => none

/-- Attempt `:?(\d{2})?\s*(AM|PM)\b` at the head of the list (the part of the
time regex after the hour digits). A present colon must be consumed and two
following digits must be taken as the minutes group: the skipping
alternatives of the two optional elements always fail afterwards, because
digit or colon characters can never begin `\s*(AM|PM)`, so no further
backtracking arises. Returns the optional minutes digits and the matched
meridiem characters. -/
def matchTail (cs : List Char) : Option (Option (List Char) × List Char) :=
  let cs1 := match cs with | ':' :: r => r | _ => cs
  match cs1 with
  | d1 :: d2 :: r =>
    if d1.isDigit ∧ d2.isDigit then
      match matchAmPmBd (r.dropWhile isWsC) with
      | some ap => some (some [d1, d2], ap)
      | none => none
    else
      match matchAmPmBd (cs1.dropWhile isWsC) with
      | some ap => some (none, ap)
      | none => none
  | _ =>
    match matchAmPmBd (cs1.dropWhile isWsC) with
    | some ap => some (none, ap)
    | none => none

/-- Attempt the whole pattern `(\d{1,2}):?(\d{2})?\s*(AM|PM)\b` at the head
of the list (the word boundary before the hour is the caller's duty). The
greedy hour group prefers two digits and backtracks to one. Returns the hour
digits, the optional minutes digits, and the meridiem characters. -/
def matchAt (cs : List Char) : Option (List Char × Option (List Char) × List Char) :=
  match cs with
  | d1 :: rest =>
    if d1.isDigit then
      match rest with
      | d2 :: rest2 =>
        if d2.isDigit then
          match matchTail rest2 with
          | some (mm, ap) => some ([d1, d2], mm, ap)
          | none => (matchTail rest).map (fun p => ([d1], p.1, p.2))
        else (matchTail rest).map (fun p => ([d1], p.1, p.2))
      | [] => none
    else none
  | [] => none

/-- Model of `text.match(/\b(\d{1,2}):?(\d{2})?\s*(AM|PM)\b/i)`: scan left to right
for the leftmost match. A match can only start at a digit preceded by a
non-word character or the start of the string (the leading word boundary),
so other positions are skipped. -/
def findMerAux (prevWord : Bool) : List Char → Option (List Char × Option (List Char) × List Char)
  | [] => none
  | c :: rest =>
    if prevWord then findMerAux (isWordChar c) rest
    else
      match matchAt (c :: rest) with
      | some r => some r
      | none => findMerAux (isWordChar c) rest

def findMer (l : List Char) : Option (List Char × Option (List Char) × List Char) :=
  findMerAux false l

/-- Model of `text.match(/[A-Za-z]+/g) || []`: the maximal runs of ASCII letters, in
order. `pending` holds the letters of the current run, reversed. -/
def alphaAux (pending : List Char) : List Char → List (List Char)
  | [] => if pending = [] then [] else [pending.reverse]
  | c :: rest =>
    if c.isAlpha then alphaAux (c :: pending) rest
    else if pending = [] then alphaAux [] rest
    else pending.reverse :: alphaAux [] rest

def alphaRuns (l : List Char) : List (List Char) := alphaAux [] l

/-- Embedding of `parseReturning` of src/server.js: empty, then pure 3-4 digit HHMM, then
a meridiem-shaped time substring, then the free-form fallback. -/
def parseReturning (rawIn : String) : ReturningInfo :=
  let text := decode rawIn
  if text = "" then ⟨none, none, none, []⟩
  else if pure34 text = true then
    let padded := padL 4 '0' text.data
    let hh := padded.take 2
    let mm := padded.drop 2
    let pretty := toString (digitsNat hh) ++ ":" ++ String.mk mm
    ⟨some text, some (String.mk hh ++ ":" ++ String.mk mm), some pretty, [pretty]⟩
  else
    match findMer text.data with
    | some (h, mm, ap) =>
      let hp := padL 2 '0' h
      let mmp := padL 2 '0' (mm.getD ('0' :: ['0']))
      let apU := String.mk (ap.map upperC)
      ⟨some text, some (String.mk hp ++ ":" ++ String.mk mmp),
       some (toString (digitsNat hp) ++ ":" ++ String.mk mmp ++ " " ++ apU), [apU]⟩
    | none =>
      ⟨some text, none, some text, (alphaRuns text.data).map String.mk⟩

/-- Result shape of `parseUpdatedFromCell` (`local` is a Lean keyword, so the
field is called `localText`). -/
structure UpdatedInfo where
  localText : Option String
  isoGuess : Option String
  epochMs : Option Int
  debug : Option String
deriving DecidableEq, Repr

/-- Test `/^MM\/dd(\s+)HH:mm$/i.test(text)`: the literal unpopulated-template
pattern, case-insensitive, with at least one whitespace character between
the two halves. -/
def isTemplate (s : String) : Bool :=
  match s.data.map lowerC with
  | 'm' :: 'm' :: '/' :: 'd' :: 'd' :: rest =>
    decide (rest.takeWhile isWsC ≠ []) && (rest.dropWhile isWsC = "hh:mm".data)
  | _ => false

/-- Embedding of `parseUpdatedFromCell` of src/server.js, over the already-extracted cell
text. The host calendar parse `new Date(text)` is the `dateParse` parameter:
`none` models an invalid date (`getTime()` is `NaN`), and `some (iso, ms)`
models a valid one with its `toISOString()` rendering and finite integral
`getTime()` — so the source's trailing never-NaN re-check of `epochMs` is a
no-op. -/
def parseUpdatedFromCell (text : String) (dateParse : String → Option (String × Int)) :
    UpdatedInfo :=
  if isTemplate text = true then ⟨none, none, none, some "FormatTokenSeen"⟩
  else if text = "" then ⟨none, none, none, none⟩
  else
    match dateParse text with
    | some (iso, ms) => ⟨some text, some iso, some ms, none⟩
    | none => ⟨some text, none, none, none⟩

/-- Abstraction of one source table row after cell-text extraction: the raw
`class` and `id` attributes of the row container (absent attributes are
`none`) and the list of texts extracted from its `td.OtlkItem` cells by
`extractCellText` (whose DOM reading is the embedding boundary). -/
structure Row where
  trClass : Option String
  idAttr : Option String
  cells : List String
deriving DecidableEq, Repr

/-- Redundant boolean status flags stored in a record's `meta.flags`. -/
structure Flags where
  isIn : Bool
  isOut : Bool
  isUnavailable : Bool
deriving DecidableEq, Repr

/-- The `meta` diagnostic bag of a record. -/
structure RecMeta where
  trClass : Option String
  rowIdAttr : Option String
  parsedAt : String
  flags : Flags
deriving DecidableEq, Repr

/-- One assembled record of the board. -/
structure Record where
  id : String
  status : Status
  name : Option String
  title : Option String
  contact : ContactInfo
  remarks : Option String
  returning : ReturningInfo
  updated : UpdatedInfo
  meta : RecMeta
deriving DecidableEq, Repr

/-- Model of `$tr.attr("id").replace(/^Row/, "")`. -/
def stripRowPfx (s : String) : String :=
  match s.data with
  | 'R' :: 'o' :: 'w' :: rest => String.mk rest
  | _ => s

/-- Embedding of `rowToRecord` of src/server.js: reject rows with fewer than seven data
cells or an empty resolved id, otherwise assemble the record from the field
parsers. `now` stands for the `new Date().toISOString()` stamp taken at
assembly time. -/
def rowToRecord (dateParse : String → Option (String × Int)) (now : String) (row : Row) :
    Option Record :=
  if row.cells.length < 7 then none
  else
    let trClass := trimS (row.trClass.getD "")
    let idFromHidden := row.cells.getD 0 ""
    let idFromAttr := stripRowPfx (row.idAttr.getD "")
    let id := if idFromHidden ≠ "" then idFromHidden else idFromAttr
    if id = "" then none
    else
      let status := normalizeStatus trClass (row.cells.getD 1 "")
      let nt := splitNameAndTitle (row.cells.getD 2 "")
      some
        { id := id
          status := status
          name := nt.name
          title := nt.title
          contact := parsePhone (row.cells.getD 3 "")
          remarks := optOfStr (row.cells.getD 4 "")
          returning := parseReturning (row.cells.getD 5 "")
          updated := parseUpdatedFromCell (row.cells.getD 6 "") dateParse
          meta :=
            { trClass := optOfStr trClass
              rowIdAttr := optOfStr (row.idAttr.getD "")
              parsedAt := now
              flags :=
                { isIn := decide (status = Status.In)
                  isOut := decide (status = Status.Out)
                  isUnavailable := decide (status = Status.Unavailable) } } }

/-- Store a record under its id in the accumulator, replacing the existing
entry in place when the key is present, appending otherwise. This is
`acc[r.id] = r` on a JavaScript object with (non-integer-like) string keys,
whose property order is insertion order. -/
def upsert : List Record → Record → List Record
  | [], r => [r]
  | a :: rest, r => if a.id = r.id then r :: rest else a :: upsert rest r

/-- Model of `Object.values(items.reduce((acc, r) => ((acc[r.id] = r), acc), {}))`:
deduplicate by id, keeping the last occurrence's record (at the first
occurrence's position). -/
def dedupById (items : List Record) : List Record := items.foldl upsert []

/-- Priority assigned to each status by the sort's `order` table. -/
def prio : Status → Nat
  | Status.In => 0
  | Status.Out => 1
  | Status.Unavailable => 2
  | Status.Unknown => 3

/-- The name key used by the sort comparator: `a.name || ""`, as code points. -/
def nameKey (r : Record) : List Char := (r.name.getD "").data

/-- Code-point lexicographic order on character lists (the model of
`localeCompare`-ascending used by the comparator). -/
def strLeB : List Char → List Char → Bool
  | [], _ => true
  | _ :: _, [] => false
  | a :: as, b :: bs =>
    if a.toNat < b.toNat then true
    else if b.toNat < a.toNat then false
    else strLeB as bs

/-- Does record `a` compare less-or-equal to record `b` under the sort
comparator (status priority first, then name)? -/
def recLe (a b : Record) : Bool :=
  if prio a.status = prio b.status then strLeB (nameKey a) (nameKey b)
  else decide (prio a.status < prio b.status)

/-- The sort key ordering of the claim, as a proposition: primarily status
priority `In < Out < Unavailable < Unknown`, secondarily name ascending with
a null name read as the empty string. -/
def keyLe (a b : Record) : Prop :=
  prio a.status < prio b.status ∨
    (prio a.status = prio b.status ∧ strLeB (nameKey a) (nameKey b) = true)

/-- Insert a record into a list sorted by `recLe`, after any entries that
compare less-or-equal (so insertion from the left is stable, as the
ECMAScript `Array.prototype.sort` is). -/
def insertRec (a : Record) : List Record → List Record
  | [] => [a]
  | b :: l => if recLe b a = true then b :: insertRec a l else a :: b :: l

/-- Model of `deduped.sort(comparator)`: a stable sort by `recLe`. -/
def sortRecs (l : List Record) : List Record :=
  l.foldl (fun acc r => insertRec r acc) []

/-- The Board Reducer: deduplicate by id (keep last), then sort by status
priority and name. -/
def boardReduce (items : List Record) : List Record := sortRecs (dedupById items)

/-- The `error` component of the snapshot cache. -/
structure ErrInfo where
  message : String
  time : String
deriving DecidableEq, Repr

/-- The snapshot cache `cache = { lastFetched, items, error }`. -/
structure Snapshot where
  lastFetched : Option String
  items : List Record
  error : Option ErrInfo
deriving DecidableEq, Repr

/-- Outcome of the outbound fetch-and-load of one refresh cycle: either the
data rows selected from the fetched document, or a thrown error whose
optional `message` property is carried (`err?.message`). -/
inductive FetchOutcome where
  | success (rows : List Row)
  | failure (errMsg : Option String)
deriving DecidableEq, Repr

/-- Value of `cache` at process start. -/
def initialCache : Snapshot := ⟨none, [], none⟩

/-- One `fetchBoard` refresh cycle over the current cache: on success the
rows are assembled (records without a truthy id contribute nothing),
reduced, and the whole cache is replaced with a fresh `lastFetched` and a
null `error`; on failure only `error` is replaced, with
`err?.message || "Unknown error"` and a fresh time. -/
def fetchBoard (dateParse : String → Option (String × Int)) (now : String)
    (cache : Snapshot) (out : FetchOutcome) : Snapshot :=
  match out with
  | FetchOutcome.success rows =>
    let items := (rows.filterMap (rowToRecord dateParse now)).filter
      (fun r => decide (r.id ≠ ""))
    ⟨some now, boardReduce items, none⟩
  | FetchOutcome.failure msg =>
    { cache with error := some ⟨msg.getD "Unknown error", now⟩ }

/-- The flags a record carries are these functions of its status. -/
def flagsOf (s : Status) : Flags :=
  ⟨decide (s = Status.In), decide (s = Status.Out), decide (s = Status.Unavailable)⟩

/-! Theorems. -/

/-- C1: for every refresh cycle, a failed fetch leaves `items` and
`lastFetched` exactly as they were and sets `error` to a non-null record
carrying the failure message (`"Unknown error"` when absent) and the fresh
cycle time, while a successful fetch replaces the whole snapshot — fresh
`lastFetched`, the reduced board, and a null `error`. -/
theorem fetchBoard_failure_preserves_success_replaces
    (dp : String → Option (String × Int)) (now : String) (cache : Snapshot)
    (out : FetchOutcome) :
    (∀ msg, out = FetchOutcome.failure msg →
      (fetchBoard dp now cache out).items = cache.items ∧
      (fetchBoard dp now cache out).lastFetched = cache.lastFetched ∧
      (fetchBoard dp now cache out).error = some ⟨msg.getD "Unknown error", now⟩) ∧
    (∀ rows, out = FetchOutcome.success rows →
      fetchBoard dp now cache out =
        ⟨some now,
         boardReduce ((rows.filterMap (rowToRecord dp now)).filter
           (fun r => decide (r.id ≠ ""))),
         none⟩) := by
  constructor
  · intro msg h
    subst h
    exact ⟨rfl, rfl, rfl⟩
  · intro rows h
    subst h
    rfl

/-- Witness for C1: a concrete failed cycle over a concrete prior snapshot
keeps its items and fetch stamp and records the fresh error. -/
theorem fetchBoard_cycle_witness :
    (fetchBoard (fun _ => none) "t1" ⟨some "t0", [], none⟩
      (FetchOutcome.failure (some "boom"))).items = [] ∧
    (fetchBoard (fun _ => none) "t1" ⟨some "t0", [], none⟩
      (FetchOutcome.failure (some "boom"))).lastFetched = some "t0" ∧
    (fetchBoard (fun _ => none) "t1" ⟨some "t0", [], none⟩
      (FetchOutcome.failure (some "boom"))).error = some ⟨"boom", "t1"⟩ :=
  (fetchBoard_failure_preserves_success_replaces (fun _ => none) "t1"
    ⟨some "t0", [], none⟩ (FetchOutcome.failure (some "boom"))).1 (some "boom") rfl

/-- C2 counterexample: with row class `"OutItem"` and cell text `"In"`, the
class contains the out marker and not the in marker, so the claimed
class-over-text precedence demands `Out`; the code returns `In`, because the
cell-text test for `In` sits in the same first branch as the class test. -/
theorem normalizeStatus_class_precedence_cex :
    containsSub ("outitem".data) (lowerS "OutItem").data = true ∧
    containsSub ("initem".data) (lowerS "OutItem").data = false ∧
    normalizeStatus "OutItem" "In" = Status.In ∧
    normalizeStatus "OutItem" "In" ≠ Status.Out := by
  refine ⟨by decide, by decide, by decide, by decide⟩

/-- C2 (amended): the classifier tries the three statuses in the order
In, Out, Unavailable, and takes a status as soon as the lowercased class
contains that status's item marker or the lowercased cell text equals the
status word — class and text are tested together in each branch, so neither
signal globally precedes the other; when no branch fires the result is
Unknown. -/
theorem normalizeStatus_branch_characterization (trClass cellText : String) :
    (normalizeStatus trClass cellText = Status.In ↔
      (containsSub ("initem".data) (lowerS trClass).data = true ∨
        lowerS cellText = "in")) ∧
    (normalizeStatus trClass cellText = Status.Out ↔
      (¬(containsSub ("initem".data) (lowerS trClass).data = true ∨
          lowerS cellText = "in") ∧
        (containsSub ("outitem".data) (lowerS trClass).data = true ∨
          lowerS cellText = "out"))) ∧
    (normalizeStatus trClass cellText = Status.Unavailable ↔
      (¬(containsSub ("initem".data) (lowerS trClass).data = true ∨
          lowerS cellText = "in") ∧
        ¬(containsSub ("outitem".data) (lowerS trClass).data = true ∨
          lowerS cellText = "out") ∧
        (containsSub ("unavailable".data) (lowerS trClass).data = true ∨
          lowerS cellText = "unavailable"))) ∧
    (normalizeStatus trClass cellText = Status.Unknown ↔
      (¬(containsSub ("initem".data) (lowerS trClass).data = true ∨
          lowerS cellText = "in") ∧
        ¬(containsSub ("outitem".data) (lowerS trClass).data = true ∨
          lowerS cellText = "out") ∧
        ¬(containsSub ("unavailable".data) (lowerS trClass).data = true ∨
          lowerS cellText = "unavailable"))) := by
  simp only [normalizeStatus]
  split_ifs with h1 h2 h3 <;> simp_all

/-- C4 counterexample: the unpopulated-template Updated text produces the
debug tag `"FormatTokenSeen"`, not the claimed `"template placeholder"`. -/
theorem parseUpdated_template_debug_cex :
    isTemplate "MM/dd HH:mm" = true ∧
    (parseUpdatedFromCell "MM/dd HH:mm" (fun _ => none)).debug ≠
      some "template placeholder" ∧
    (parseUpdatedFromCell "MM/dd HH:mm" (fun _ => none)).debug =
      some "FormatTokenSeen" := by
  refine ⟨by decide, by decide, by decide⟩

/-- C4 (amended): for every Updated cell whose extracted text matches the
literal unpopulated-template pattern, and whatever the host date parser
would say, the parser returns all-null fields and the debug tag
`"FormatTokenSeen"`. -/
theorem parseUpdated_template_branch (text : String)
    (dp : String → Option (String × Int)) (h : isTemplate text = true) :
    parseUpdatedFromCell text dp = ⟨none, none, none, some "FormatTokenSeen"⟩ := by
  unfold parseUpdatedFromCell
  rw [if_pos h]

/-- Witness for the C4 theorem at the concrete template text. -/
theorem parseUpdated_template_branch_witness :
    isTemplate "MM/dd HH:mm" = true ∧
    parseUpdatedFromCell "MM/dd HH:mm" (fun _ => none) =
      ⟨none, none, none, some "FormatTokenSeen"⟩ :=
  ⟨by decide, parseUpdated_template_branch "MM/dd HH:mm" (fun _ => none) (by decide)⟩

/-- Every accepted row's record stores exactly the flags derived from its
status field. -/
theorem rowToRecord_flags_eq (dp : String → Option (String × Int)) (now : String)
    (row : Row) (rec : Record) (h : rowToRecord dp now row = some rec) :
    rec.meta.flags = flagsOf rec.status := by
  simp only [rowToRecord] at h
  repeat' split at h
  all_goals
    first
      | exact Option.noConfusion h
      | (injection h with h; subst h; rfl)

/-- C10: every record produced by the Row Assembler has `meta.flags`
agreeing with `status`: `isIn` iff `In`, `isOut` iff `Out`,
`isUnavailable` iff `Unavailable`, and all three false exactly when the
status is `Unknown`. -/
theorem rowToRecord_flags_invariant (dp : String → Option (String × Int))
    (now : String) (row : Row) (rec : Record)
    (h : rowToRecord dp now row = some rec) :
    (rec.meta.flags.isIn = true ↔ rec.status = Status.In) ∧
    (rec.meta.flags.isOut = true ↔ rec.status = Status.Out) ∧
    (rec.meta.flags.isUnavailable = true ↔ rec.status = Status.Unavailable) ∧
    ((rec.meta.flags.isIn = false ∧ rec.meta.flags.isOut = false ∧
        rec.meta.flags.isUnavailable = false) ↔ rec.status = Status.Unknown) := by
  have hf := rowToRecord_flags_eq dp now row rec h
  rw [hf]
  cases rec.status <;> simp [flagsOf]

/-- Witness for C10: a concrete seven-cell row with an in-class marker is
accepted, and its record satisfies the flag/status agreement. -/
theorem rowToRecord_flags_invariant_witness :
    (rowToRecord (fun _ => none) "t0"
      ⟨some "InItem", some "Row42",
        ["id1", "In", "Alice - Boss", "701.777.7868", "", "1145", "MM/dd HH:mm"]⟩).elim
      False
      (fun rec => rec.meta.flags.isIn = true ↔ rec.status = Status.In) := by
  cases hrec : rowToRecord (fun _ => none) "t0"
      ⟨some "InItem", some "Row42",
        ["id1", "In", "Alice - Boss", "701.777.7868", "", "1145", "MM/dd HH:mm"]⟩ with
  | none => exact absurd hrec (by decide)
  | some rec =>
    simpa [hrec] using
      (rowToRecord_flags_invariant (fun _ => none) "t0" _ rec hrec).1

/-- C6: the Phone Normalizer's output is determined by the count of digit
characters in the decoded text — empty text gives all-null fields; no digits
gives null digits and the decoded text as `pretty`; exactly ten digits gives
`+1`-prefixed `e164` and the parenthesized pretty form; exactly seven gives
the dashed local pretty form and no `e164`; eleven or more gives
`+`-prefixed `e164` with `pretty` the decoded text; any other count gives no
`e164` and `pretty` the decoded text. -/
theorem parsePhone_digit_count_spec (raw : String) :
    (decode raw = "" → parsePhone raw = ⟨none, none, none, none⟩) ∧
    (decode raw ≠ "" → (decode raw).data.filter Char.isDigit = [] →
      parsePhone raw = ⟨some (decode raw), none, none, some (decode raw)⟩) ∧
    (decode raw ≠ "" → ((decode raw).data.filter Char.isDigit).length = 10 →
      parsePhone raw =
        ⟨some (decode raw), some (String.mk ((decode raw).data.filter Char.isDigit)),
         some ("+1" ++ String.mk ((decode raw).data.filter Char.isDigit)),
         some ("(" ++ String.mk (((decode raw).data.filter Char.isDigit).take 3) ++ ") "
           ++ String.mk ((((decode raw).data.filter Char.isDigit).drop 3).take 3)
           ++ "-" ++ String.mk (((decode raw).data.filter Char.isDigit).drop 6))⟩) ∧
    (decode raw ≠ "" → ((decode raw).data.filter Char.isDigit).length = 7 →
      parsePhone raw =
        ⟨some (decode raw), some (String.mk ((decode raw).data.filter Char.isDigit)),
         none,
         some (String.mk (((decode raw).data.filter Char.isDigit).take 3) ++ "-"
           ++ String.mk (((decode raw).data.filter Char.isDigit).drop 3))⟩) ∧
    (decode raw ≠ "" → 11 ≤ ((decode raw).data.filter Char.isDigit).length →
      parsePhone raw =
        ⟨some (decode raw), some (String.mk ((decode raw).data.filter Char.isDigit)),
         some ("+" ++ String.mk ((decode raw).data.filter Char.isDigit)),
         some (decode raw)⟩) ∧
    (decode raw ≠ "" → (decode raw).data.filter Char.isDigit ≠ [] →
      ((decode raw).data.filter Char.isDigit).length ≠ 10 →
      ((decode raw).data.filter Char.isDigit).length ≠ 7 →
      ((decode raw).data.filter Char.isDigit).length < 11 →
      parsePhone raw =
        ⟨some (decode raw), some (String.mk ((decode raw).data.filter Char.isDigit)),
         none, some (decode raw)⟩) := by
  refine ⟨?_, ?_, ?_, ?_, ?_, ?_⟩
  · intro h1
    simp only [parsePhone]
    rw [if_pos h1]
  · intro h1 h2
    simp only [parsePhone]
    rw [if_neg h1, if_pos h2]
  · intro h1 h2
    have hne : (decode raw).data.filter Char.isDigit ≠ [] := by
      intro hh
      rw [hh] at h2
      simp at h2
    simp only [parsePhone]
    rw [if_neg h1, if_neg hne, if_pos h2]
  · intro h1 h2
    have hne : (decode raw).data.filter Char.isDigit ≠ [] := by
      intro hh
      rw [hh] at h2
      simp at h2
    simp only [parsePhone]
    rw [if_neg h1, if_neg hne, if_neg (by omega), if_pos h2]
  · intro h1 h2
    have hne : (decode raw).data.filter Char.isDigit ≠ [] := by
      intro hh
      rw [hh] at h2
      simp at h2
    simp only [parsePhone]
    rw [if_neg h1, if_neg hne, if_neg (by omega), if_neg (by omega), if_pos h2]
  · intro h1 h2 h3 h4 h5
    simp only [parsePhone]
    rw [if_neg h1, if_neg h2, if_neg h3, if_neg h4, if_neg (by omega)]

/-- Witness for C6 at the spec's two concrete phone inputs. -/
theorem parsePhone_digit_count_witness :
    ((decode "701.777.7868").data.filter Char.isDigit).length = 10 ∧
    parsePhone "701.777.7868" =
      ⟨some "701.777.7868", some "7017777868", some "+17017777868",
       some "(701) 777-7868"⟩ ∧
    parsePhone "" = ⟨none, none, none, none⟩ := by
  refine ⟨by decide, ?_, ?_⟩
  · exact ((parsePhone_digit_count_spec "701.777.7868").2.2.1 (by decide)
      (by decide)).trans (by decide)
  · exact (parsePhone_digit_count_spec "").1 (by decide)

/-- C7 counterexample: the meridiem branch does not convert to a 24-hour
clock — the input carrying `9:30 PM` yields `hhmm = "09:30"`, not the
claimed `"21:30"` (the meridiem survives only inside `pretty`). -/
theorem parseReturning_no_24h_conversion_cex :
    (parseReturning "9:30 PM").hhmm = some "09:30" ∧
    (parseReturning "9:30 PM").hhmm ≠ some "21:30" ∧
    (parseReturning "9:30 PM").pretty = some "9:30 PM" := by
  refine ⟨by decide, by decide, by decide⟩

/-- C7 (amended): whenever the Returning-Time Parser finds a meridiem-shaped
time substring, `hhmm` is the zero-padded hour and minutes exactly as they
were written (no 12-to-24-hour conversion), and `pretty` renders the time
with the uppercased meridiem preserved, which is also the only token. -/
theorem parseReturning_meridiem_branch (raw : String) (h : List Char)
    (mm : Option (List Char)) (ap : List Char)
    (hne : decode raw ≠ "") (hnd : pure34 (decode raw) = false)
    (hm : findMer (decode raw).data = some (h, mm, ap)) :
    (parseReturning raw).hhmm =
      some (String.mk (padL 2 '0' h) ++ ":" ++
        String.mk (padL 2 '0' (mm.getD ('0' :: ['0'])))) ∧
    (parseReturning raw).pretty =
      some (toString (digitsNat (padL 2 '0' h)) ++ ":" ++
        String.mk (padL 2 '0' (mm.getD ('0' :: ['0']))) ++ " " ++
        String.mk (ap.map upperC)) ∧
    (parseReturning raw).tokens = [String.mk (ap.map upperC)] := by
  simp only [parseReturning]
  rw [if_neg hne, if_neg (by simp [hnd]), hm]
  exact ⟨rfl, rfl, rfl⟩

/-- Witness for the C7 theorem at the concrete input carrying `9:30 PM`. -/
theorem parseReturning_meridiem_branch_witness :
    decode "9:30 PM" ≠ "" ∧ pure34 (decode "9:30 PM") = false ∧
    findMer (decode "9:30 PM").data = some (['9'], some ['3', '0'], ['P', 'M']) ∧
    (parseReturning "9:30 PM").hhmm = some "09:30" := by
  refine ⟨by decide, by decide, by decide, ?_⟩
  exact ((parseReturning_meridiem_branch "9:30 PM" ['9'] (some ['3', '0']) ['P', 'M']
    (by decide) (by decide) (by decide)).1).trans (by decide)

/-- C8 counterexample: the empty input matches neither the pure-digit form
nor a meridiem time, yet the parser returns a null `pretty` rather than the
decoded text (the empty string), so the free-form clause does not cover the
empty input. -/
theorem parseReturning_empty_input_cex :
    pure34 (decode "") = false ∧ findMer (decode "").data = none ∧
    parseReturning "" = ⟨none, none, none, []⟩ ∧
    (parseReturning "").pretty ≠ some (decode "") := by
  refine ⟨by decide, by decide, by decide, by decide⟩

/-- C8 (amended): the parser's branches apply in order — a decoded text of
purely three-to-four digits is left-padded to four and split into a
zero-padded `hhmm`; an empty decoded text yields all fields null with no
tokens; and a nonempty text matching neither the digit form nor a meridiem
time yields a null `hhmm`, the decoded text as `pretty`, and the maximal
alphabetic words of the text, in original order, as `tokens`. -/
theorem parseReturning_branch_order_spec (raw : String) :
    (pure34 (decode raw) = true →
      parseReturning raw =
        ⟨some (decode raw),
         some (String.mk ((padL 4 '0' (decode raw).data).take 2) ++ ":" ++
           String.mk ((padL 4 '0' (decode raw).data).drop 2)),
         some (toString (digitsNat ((padL 4 '0' (decode raw).data).take 2)) ++ ":" ++
           String.mk ((padL 4 '0' (decode raw).data).drop 2)),
         [toString (digitsNat ((padL 4 '0' (decode raw).data).take 2)) ++ ":" ++
           String.mk ((padL 4 '0' (decode raw).data).drop 2)]⟩) ∧
    (decode raw = "" → parseReturning raw = ⟨none, none, none, []⟩) ∧
    (decode raw ≠ "" → pure34 (decode raw) = false → findMer (decode raw).data = none →
      parseReturning raw =
        ⟨some (decode raw), none, some (decode raw),
         (alphaRuns (decode raw).data).map String.mk⟩) := by
  refine ⟨?_, ?_, ?_⟩
  · intro h1
    have hne : decode raw ≠ "" := by
      intro hh
      rw [hh] at h1
      simp [pure34] at h1
    simp only [parseReturning]
    rw [if_neg hne, if_pos h1]
  · intro h1
    simp only [parseReturning]
    rw [if_pos h1]
  · intro h1 h2 h3
    simp only [parseReturning]
    rw [if_neg h1, if_neg (by simp [h2]), h3]

/-- Witness for the C8 theorem at the spec's digit-form and free-form
inputs. -/
theorem parseReturning_branch_order_witness :
    parseReturning "1145" = ⟨some "1145", some "11:45", some "11:45", ["11:45"]⟩ ∧
    parseReturning "Thu PM mod" =
      ⟨some "Thu PM mod", none, some "Thu PM mod", ["Thu", "PM", "mod"]⟩ := by
  constructor
  · exact ((parseReturning_branch_order_spec "1145").1 (by decide)).trans (by decide)
  · exact ((parseReturning_branch_order_spec "Thu PM mod").2.2 (by decide) (by decide)
      (by decide)).trans (by decide)

/-- C9 counterexample: on the input `"- Smith"` the splitter does find a
hyphen-like separator followed by whitespace, and the first segment of the
split is empty — but `name` comes out `null`, not the (empty) trimmed first
segment, because of the falsy-to-null coercion. -/
theorem splitNameAndTitle_empty_name_cex :
    jsSplitSep (decode "- Smith").data = [[], "Smith".data] ∧
    String.mk (trimWs ([] : List Char)) = "" ∧
    (splitNameAndTitle "- Smith").name = none ∧
    (splitNameAndTitle "- Smith").name ≠ some "" := by
  refine ⟨by decide, by decide, by decide, by decide⟩

/-- C9 (amended): empty input yields both fields null; with no hyphen-like
separator followed by whitespace the full decoded text becomes `name` with a
null `title`; otherwise the trimmed first segment becomes `name` (null when
that segment trims to empty) and the remaining segments rejoined with
`" - "` and trimmed become `title` (null when that trims to empty). -/
theorem splitNameAndTitle_spec (raw : String) :
    (decode raw = "" → splitNameAndTitle raw = ⟨none, none⟩) ∧
    (∀ p, decode raw ≠ "" → jsSplitSep (decode raw).data = [p] →
      splitNameAndTitle raw = ⟨some (decode raw), none⟩) ∧
    (∀ p q rs, decode raw ≠ "" → jsSplitSep (decode raw).data = p :: q :: rs →
      splitNameAndTitle raw =
        ⟨optOfStr (String.mk (trimWs p)),
         optOfStr (String.mk (trimWs (List.intercalate (" - ".data) (q :: rs))))⟩) := by
  refine ⟨?_, ?_, ?_⟩
  · intro h1
    simp only [splitNameAndTitle]
    rw [if_pos h1]
  · intro p h1 h2
    simp only [splitNameAndTitle]
    rw [if_neg h1, h2]
  · intro p q rs h1 h2
    simp only [splitNameAndTitle]
    rw [if_neg h1, h2]

/-- Witness for the C9 theorem on a separated and an unseparated name. -/
theorem splitNameAndTitle_spec_witness :
    splitNameAndTitle "Brendan Aug - FDM Analyst" =
      ⟨some "Brendan Aug", some "FDM Analyst"⟩ ∧
    splitNameAndTitle "Mary-Jane Watson" = ⟨some "Mary-Jane Watson", none⟩ := by
  constructor
  · exact ((splitNameAndTitle_spec "Brendan Aug - FDM Analyst").2.2
      ("Brendan Aug".data) ("FDM Analyst".data) [] (by decide) (by decide)).trans
      (by decide)
  · exact ((splitNameAndTitle_spec "Mary-Jane Watson").2.1
      ("Mary-Jane Watson".data) (by decide) (by decide)).trans (by decide)

/-- The first decode pass leaves no non-breaking space in its output: every
occurrence is replaced by a plain space. -/
theorem replNbsp_no_nbsp (l : List Char) : '\u00A0' ∉ replNbsp l := by
  induction l using replNbsp.induct with
  | case1 => simp [replNbsp]
  | case2 rest ih =>
    simp [replNbsp]
    exact ih
  | case3 rest ih =>
    simp [replNbsp]
    exact ih
  | case4 c rest h1 h2 ih =>
    rw [replNbsp.eq_def]
    split
    · simp
    · rename_i rest2 heq
      injection heq with hc hr
      exact absurd hc h1
    · rename_i rest2 heq
      injection heq with hc hr
      exact absurd hr (h2 rest2 hc)
    · rename_i c2 rest2 heq
      injection heq with hc hr
      subst hc hr
      intro hmem
      rcases List.mem_cons.mp hmem with h | h
      · exact h1 h.symm
      · exact ih h

/-- Characters of the `&amp;` pass output come from the input, except for
the replacement ampersand. -/
theorem replAmp_mem (a : Char) (l : List Char) : a ∈ replAmp l → a ∈ l ∨ a = '&' := by
  induction l using replAmp.induct with
  | case1 => intro h; simp [replAmp] at h
  | case2 rest ih =>
    intro h
    simp only [replAmp] at h
    rcases List.mem_cons.mp h with h | h
    · exact Or.inr h
    · rcases ih h with h | h
      · exact Or.inl (by simp [h])
      · exact Or.inr h
  | case3 c rest h1 ih =>
    intro h
    rw [replAmp.eq_def] at h
    split at h
    · simp at h
    · rename_i rest2 heq
      injection heq with hc hr
      exact absurd hr (h1 rest2 hc)
    · rename_i c2 rest2 heq
      injection heq with hc hr
      subst hc hr
      rcases List.mem_cons.mp h with h | h
      · exact Or.inl (by simp [h])
      · rcases ih h with h | h
        · exact Or.inl (List.mem_cons_of_mem _ h)
        · exact Or.inr h

/-- Characters of the `&lt;` pass output come from the input, except for
the replacement less-than sign. -/
theorem replLt_mem (a : Char) (l : List Char) : a ∈ replLt l → a ∈ l ∨ a = '<' := by
  induction l using replLt.induct with
  | case1 => intro h; simp [replLt] at h
  | case2 rest ih =>
    intro h
    simp only [replLt] at h
    rcases List.mem_cons.mp h with h | h
    · exact Or.inr h
    · rcases ih h with h | h
      · exact Or.inl (by simp [h])
      · exact Or.inr h
  | case3 c rest h1 ih =>
    intro h
    rw [replLt.eq_def] at h
    split at h
    · simp at h
    · rename_i rest2 heq
      injection heq with hc hr
      exact absurd hr (h1 rest2 hc)
    · rename_i c2 rest2 heq
      injection heq with hc hr
      subst hc hr
      rcases List.mem_cons.mp h with h | h
      · exact Or.inl (by simp [h])
      · rcases ih h with h | h
        · exact Or.inl (List.mem_cons_of_mem _ h)
        · exact Or.inr h

/-- Characters of the `&gt;` pass output come from the input, except for
the replacement greater-than sign. -/
theorem replGt_mem (a : Char) (l : List Char) : a ∈ replGt l → a ∈ l ∨ a = '>' := by
  induction l using replGt.induct with
  | case1 => intro h; simp [replGt] at h
  | case2 rest ih =>
    intro h
    simp only [replGt] at h
    rcases List.mem_cons.mp h with h | h
    · exact Or.inr h
    · rcases ih h with h | h
      · exact Or.inl (by simp [h])
      · exact Or.inr h
  | case3 c rest h1 ih =>
    intro h
    rw [replGt.eq_def] at h
    split at h
    · simp at h
    · rename_i rest2 heq
      injection heq with hc hr
      exact absurd hr (h1 rest2 hc)
    · rename_i c2 rest2 heq
      injection heq with hc hr
      subst hc hr
      rcases List.mem_cons.mp h with h | h
      · exact Or.inl (by simp [h])
      · rcases ih h with h | h
        · exact Or.inl (List.mem_cons_of_mem _ h)
        · exact Or.inr h

/-- Characters of the whitespace-collapsing pass come from the input, except
for replacement spaces. -/
theorem collapseAux_mem (a : Char) (l : List Char) :
    ∀ b, a ∈ collapseAux b l → a ∈ l ∨ a = ' ' := by
  induction l with
  | nil => intro b h; simp [collapseAux] at h
  | cons c rest ih =>
    intro b
    simp only [collapseAux]
    split_ifs with h1 h2 <;> intro hm
    · rcases ih true hm with h | h
      · exact Or.inl (List.mem_cons_of_mem _ h)
      · exact Or.inr h
    · rcases List.mem_cons.mp hm with h | h
      · exact Or.inr h
      · rcases ih true h with h' | h'
        · exact Or.inl (List.mem_cons_of_mem _ h')
        · exact Or.inr h'
    · rcases List.mem_cons.mp hm with h | h
      · exact Or.inl (by simp [h])
      · rcases ih false h with h' | h'
        · exact Or.inl (List.mem_cons_of_mem _ h')
        · exact Or.inr h'

/-- Characters of the per-run rewrite for `/\s+\n/g` come from the run,
except for the replacement newline. -/
theorem step6Run_mem (a : Char) (r : List Char) (h : a ∈ step6Run r) :
    a ∈ r ∨ a = '\n' := by
  unfold step6Run at h
  split at h
  · split_ifs at h with hk
    · rcases List.mem_cons.mp h with h | h
      · exact Or.inr h
      · exact Or.inl (List.mem_of_mem_drop h)
    · exact Or.inl h
  · exact Or.inl h

/-- Characters of the per-run rewrite for `/\n\s+/g` come from the run. -/
theorem step7Run_mem (a : Char) (r : List Char) (h : a ∈ step7Run r) :
    a ∈ r ∨ a = '\n' := by
  unfold step7Run at h
  split at h
  · split_ifs at h with hk
    · exact Or.inl ((List.take_sublist _ _).subset h)
    · exact Or.inl h
  · exact Or.inl h

/-- Characters of a run-scanner pass come from the pending run or the input,
except for characters the per-run rewrite may introduce (a newline, for the
two rewrites used). -/
theorem runsAux_mem (f : List Char → List Char)
    (hf : ∀ a r, a ∈ f r → a ∈ r ∨ a = '\n') (a : Char) (l : List Char) :
    ∀ pending, a ∈ runsAux f pending l → a ∈ pending ∨ a ∈ l ∨ a = '\n' := by
  induction l with
  | nil =>
    intro p h
    simp only [runsAux] at h
    rcases hf a p h with h | h
    · exact Or.inl h
    · exact Or.inr (Or.inr h)
  | cons c rest ih =>
    intro p
    simp only [runsAux]
    split_ifs with h1 <;> intro hm
    · rcases ih (p ++ [c]) hm with h | h | h
      · rcases List.mem_append.mp h with h | h
        · exact Or.inl h
        · simp only [List.mem_singleton] at h
          exact Or.inr (Or.inl (by simp [h]))
      · exact Or.inr (Or.inl (List.mem_cons_of_mem _ h))
      · exact Or.inr (Or.inr h)
    · rcases List.mem_append.mp hm with h | h
      · rcases hf a p h with h | h
        · exact Or.inl h
        · exact Or.inr (Or.inr h)
      · rcases List.mem_cons.mp h with h | h
        · exact Or.inr (Or.inl (by simp [h]))
        · rcases ih [] h with h' | h' | h'
          · simp at h'
          · exact Or.inr (Or.inl (List.mem_cons_of_mem _ h'))
          · exact Or.inr (Or.inr h')

/-- Trimming only removes characters. -/
theorem trimWs_mem (a : Char) (l : List Char) (h : a ∈ trimWs l) : a ∈ l := by
  unfold trimWs at h
  rw [List.mem_reverse] at h
  have h2 : a ∈ (l.dropWhile isWsC).reverse := (List.dropWhile_sublist _).subset h
  rw [List.mem_reverse] at h2
  exact (List.dropWhile_sublist _).subset h2

/-- C5 counterexample: the Cell Decoder is not idempotent — entity
unescaping can create a fresh `&nbsp;` sequence, so decoding
`"&amp;nbsp;"` yields `"&nbsp;"`, but decoding again yields the empty
string. -/
theorem decode_not_idempotent_cex :
    decode (decode "&amp;nbsp;") ≠ decode "&amp;nbsp;" ∧
    decode "&amp;nbsp;" = "&nbsp;" ∧ decode "&nbsp;" = "" := by
  refine ⟨by decide, by decide, by decide⟩

/-- C5 (amended): decoding is not idempotent in general, but the decoder
does replace every non-breaking-space variant with a plain space and
collapse horizontal whitespace runs: the concrete double-non-breaking-space
input decodes to `"A B"`, and no output of `decode` ever contains a
non-breaking-space character. -/
theorem decode_nbsp_removal :
    decode "A\u00A0\u00A0B" = "A B" ∧ ∀ s : String, '\u00A0' ∉ (decode s).data := by
  constructor
  · decide
  · intro s hmem
    have h1 : ('\u00A0' : Char) ∈ trimWs (replNlWs (replWsNl (collapseHWs
        (replGt (replLt (replAmp (replNbsp s.data))))))) := hmem
    have h2 := trimWs_mem _ _ h1
    rcases runsAux_mem step7Run step7Run_mem _ _ [] h2 with h | h | h
    · simp at h
    · rcases runsAux_mem step6Run step6Run_mem _ _ [] h with h | h | h
      · simp at h
      · rcases collapseAux_mem _ _ false h with h | h
        · rcases replGt_mem _ _ h with h | h
          · rcases replLt_mem _ _ h with h | h
            · rcases replAmp_mem _ _ h with h | h
              · exact replNbsp_no_nbsp _ h
              · exact absurd h (by decide)
            · exact absurd h (by decide)
          · exact absurd h (by decide)
        · exact absurd h (by decide)
      · exact absurd h (by decide)
    · exact absurd h (by decide)

/-- The code-point order is total. -/
theorem strLeB_total (a : List Char) : ∀ b, strLeB a b = true ∨ strLeB b a = true := by
  induction a with
  | nil => intro b; exact Or.inl rfl
  | cons x xs ih =>
    intro b
    cases b with
    | nil => exact Or.inr rfl
    | cons y ys =>
      simp only [strLeB]
      rcases Nat.lt_trichotomy x.toNat y.toNat with h | h | h
      · left
        rw [if_pos h]
      · rw [if_neg (by omega), if_neg (by omega), if_neg (by omega), if_neg (by omega)]
        exact ih ys
      · right
        rw [if_pos h]

/-- The sort comparator is total. -/
theorem recLe_total (a b : Record) : recLe a b = true ∨ recLe b a = true := by
  unfold recLe
  by_cases h : prio a.status = prio b.status
  · rw [if_pos h, if_pos h.symm]
    exact strLeB_total _ _
  · rw [if_neg h, if_neg (Ne.symm h)]
    rcases Nat.lt_trichotomy (prio a.status) (prio b.status) with h1 | h1 | h1
    · exact Or.inl (decide_eq_true h1)
    · exact absurd h1 h
    · exact Or.inr (decide_eq_true h1)

/-- The Boolean comparator agrees with the claim's key ordering. -/
theorem recLe_eq_true_iff (a b : Record) : recLe a b = true ↔ keyLe a b := by
  unfold recLe keyLe
  split_ifs with h
  · constructor
    · intro hs
      exact Or.inr ⟨h, hs⟩
    · intro hk
      rcases hk with hk | hk
      · exact absurd hk (by omega)
      · exact hk.2
  · rw [decide_eq_true_iff]
    constructor
    · intro hs
      exact Or.inl hs
    · intro hk
      rcases hk with hk | hk
      · exact hk
      · exact absurd hk.1 h

/-- Insertion only rearranges: the result is a permutation of the element
consed on the list. -/
theorem insertRec_perm (a : Record) (l : List Record) : (insertRec a l).Perm (a :: l) := by
  induction l with
  | nil => exact List.Perm.refl _
  | cons b t ih =>
    simp only [insertRec]
    split_ifs with h
    · exact (ih.cons b).trans (List.Perm.swap a b t)
    · exact List.Perm.refl _

/-- The fold of insertions permutes the accumulator joined with the input. -/
theorem foldl_insertRec_perm (l : List Record) :
    ∀ acc, (l.foldl (fun acc r => insertRec r acc) acc).Perm (acc ++ l) := by
  induction l with
  | nil => intro acc; simp
  | cons r t ih =>
    intro acc
    refine (ih (insertRec r acc)).trans ?_
    refine (List.Perm.append_right t (insertRec_perm r acc)).trans ?_
    exact List.perm_middle.symm

/-- The sort is a permutation. -/
theorem sortRecs_perm (l : List Record) : (sortRecs l).Perm l := by
  simpa [sortRecs] using foldl_insertRec_perm l []

/-- Insertion preserves adjacent-pair sortedness (using totality of the
comparator at the insertion point). -/
theorem chain_insertRec (a : Record) (l : List Record)
    (h : List.Chain' (fun x y => recLe x y = true) l) :
    List.Chain' (fun x y => recLe x y = true) (insertRec a l) := by
  induction l with
  | nil => simp [insertRec]
  | cons b t ih =>
    simp only [insertRec]
    split_ifs with hba
    · have hit := ih h.tail
      cases t with
      | nil =>
        simp only [insertRec]
        exact List.chain'_cons.mpr ⟨hba, List.chain'_singleton a⟩
      | cons c t2 =>
        simp only [insertRec] at hit ⊢
        split_ifs at hit ⊢ with hca
        · exact List.chain'_cons.mpr ⟨(List.chain'_cons.mp h).1, hit⟩
        · exact List.chain'_cons.mpr ⟨hba, hit⟩
    · exact List.chain'_cons.mpr ⟨(recLe_total a b).resolve_right hba, h⟩

/-- The sort output is sorted in the adjacent-pair sense. -/
theorem chain_sortRecs (l : List Record) :
    List.Chain' (fun x y => recLe x y = true) (sortRecs l) := by
  suffices h : ∀ acc, List.Chain' (fun x y => recLe x y = true) acc →
      List.Chain' (fun x y => recLe x y = true)
        (l.foldl (fun acc r => insertRec r acc) acc) by
    simpa [sortRecs] using h [] (by simp)
  induction l with
  | nil => intro acc hacc; exact hacc
  | cons r t ih =>
    intro acc hacc
    exact ih _ (chain_insertRec r acc hacc)

/-- Storing a record does not disturb the entries under other ids. -/
theorem upsert_filter_ne (r : Record) (x : String) (hx : x ≠ r.id) :
    ∀ acc : List Record,
      (upsert acc r).filter (fun q => decide (q.id = x)) =
        acc.filter (fun q => decide (q.id = x)) := by
  intro acc
  induction acc with
  | nil => simp [upsert, Ne.symm hx]
  | cons a rest ih =>
    simp only [upsert]
    split_ifs with ha
    · simp [List.filter_cons, Ne.symm hx, ha]
    · simp [List.filter_cons, ih]

/-- Storing a record makes it the single head of its id's entries, followed
by whatever duplicates lay beyond the replaced position. -/
theorem upsert_filter_eq (r : Record) :
    ∀ acc : List Record,
      (upsert acc r).filter (fun q => decide (q.id = r.id)) =
        r :: (acc.filter (fun q => decide (q.id = r.id))).tail := by
  intro acc
  induction acc with
  | nil => simp [upsert]
  | cons a rest ih =>
    simp only [upsert]
    split_ifs with ha
    · simp [List.filter_cons, ha]
    · simp [List.filter_cons, ha, ih]

/-- Folding the store over a record list: the entries under an id collapse
to the last stored record of that id (over the tail of whatever the
accumulator already held), or stay those of the accumulator when the id
does not occur. -/
theorem foldl_upsert_filter (x : String) :
    ∀ (items acc : List Record),
      ((items.foldl upsert acc).filter (fun q => decide (q.id = x))) =
        (match (items.filter (fun q => decide (q.id = x))).getLast? with
         | some r => r :: (acc.filter (fun q => decide (q.id = x))).tail
         | none => acc.filter (fun q => decide (q.id = x))) := by
  intro items
  induction items with
  | nil => intro acc; simp
  | cons r rest ih =>
    intro acc
    rw [List.foldl_cons, ih (upsert acc r)]
    by_cases hx : r.id = x
    · subst hx
      rw [upsert_filter_eq r acc]
      have hfc : (r :: rest).filter (fun q => decide (q.id = r.id)) =
          r :: rest.filter (fun q => decide (q.id = r.id)) := by
        simp [List.filter_cons]
      rw [hfc]
      cases hc : rest.filter (fun q => decide (q.id = r.id)) with
      | nil => simp
      | cons b t =>
        rw [List.getLast?_cons_cons]
        cases hgl : (b :: t).getLast? with
        | none => simp at hgl
        | some r2 => simp
    · rw [upsert_filter_ne r x (fun h => hx h.symm)]
      simp [List.filter_cons, hx]

/-- The Board Reducer's deduplication keeps, under each id, exactly the last
occurrence of the input, in the JavaScript object's value order. -/
theorem dedup_filter_eq (items : List Record) (x : String) :
    (dedupById items).filter (fun q => decide (q.id = x)) =
      ((items.filter (fun q => decide (q.id = x))).getLast?).toList := by
  have h := foldl_upsert_filter x items []
  simp only [dedupById]
  rw [h]
  cases hc : (items.filter (fun q => decide (q.id = x))).getLast? <;> simp

/-- C3: the Board Reducer keeps, for each distinct id, exactly one record —
the last occurrence in source order — and every adjacent pair of its output
satisfies the key ordering: status priority
`In < Out < Unavailable < Unknown` first, name ascending second, with null
or empty names read as the empty string. -/
theorem boardReduce_dedup_and_sorted (items : List Record) :
    (∀ idv : String,
      (boardReduce items).filter (fun r => decide (r.id = idv)) =
        ((items.filter (fun r => decide (r.id = idv))).getLast?).toList) ∧
    List.Chain' keyLe (boardReduce items) := by
  constructor
  · intro idv
    have hperm : ((boardReduce items).filter (fun r => decide (r.id = idv))).Perm
        ((dedupById items).filter (fun r => decide (r.id = idv))) :=
      List.Perm.filter _ (sortRecs_perm (dedupById items))
    rw [dedup_filter_eq items idv] at hperm
    cases hcase : (items.filter (fun r => decide (r.id = idv))).getLast? with
    | none =>
      rw [hcase] at hperm
      simpa [List.perm_nil] using hperm
    | some r =>
      rw [hcase] at hperm
      simpa [List.perm_singleton] using hperm
  · exact List.Chain'.imp (fun a b h => (recLe_eq_true_iff a b).mp h)
      (chain_sortRecs (dedupById items))

end ATI
